import Mathlib

/-!
Verification development for the `stempy` feature module `src/features/zps.py`.

The module computes Zernike (and generalized pseudo-Zernike) polynomial bases
on a disk grid, extracts image moments against that basis with several
numerical strategies, and provides an algebra over moment arrays.

Modelling conventions:
* Python floats are modelled by `ℝ`, complex values by `ℂ`.
* A Python call that raises an exception (assert failure, numpy shape error,
  `np.linalg.LinAlgError`, max of an empty array) is modelled by an
  `Option`-valued function returning `none`.
* numpy arrays are modelled as total functions from indices together with the
  explicit shape; entries outside the shape are never inspected by theorems.
* The helper module `.utils` (`nm2j`, `j2nm`, `nm2j_complex`, `grid_rt`) is not
  part of the provided sources; those functions are modelled from the spec and
  are marked as such in their doc comments.
-/

/-- Maximum of a list of integers, as computed by `numpy.max`; `numpy` raises on
an empty array, callers below guard for emptiness before using this. -/
def listMaxZ : List ℤ → ℤ
  | [] => 0
  | x :: xs => xs.foldl max x

/-- Auxiliary: the initial accumulator is below a `foldl max`. -/
theorem foldl_max_ge_init (xs : List ℤ) (a : ℤ) : a ≤ xs.foldl max a := by
  induction xs generalizing a with
  | nil => exact le_refl a
  | cons y ys ih => exact le_trans (le_max_left a y) (ih (max a y))

/-- Auxiliary: every member of the list is below a `foldl max`. -/
theorem foldl_max_ge_mem {x : ℤ} (xs : List ℤ) (a : ℤ) (hx : x ∈ xs) :
    x ≤ xs.foldl max a := by
  induction xs generalizing a with
  | nil => cases hx
  | cons y ys ih =>
    rcases List.mem_cons.mp hx with h | h
    · subst h
      exact le_trans (le_max_right a x) (foldl_max_ge_init ys (max a x))
    · exact ih (max a y) h

/-- Every element of a list is bounded by `listMaxZ`. -/
theorem le_listMaxZ {x : ℤ} {l : List ℤ} (hx : x ∈ l) : x ≤ listMaxZ l := by
  cases l with
  | nil => cases hx
  | cons y ys =>
    rcases List.mem_cons.mp hx with h | h
    · subst h; exact foldl_max_ge_init ys x
    · exact foldl_max_ge_mem ys y h

/-- Value of `scipy.special.binom(x, y)` at integer arguments with `x ≥ 0`:
the binomial coefficient, and `0` whenever `y < 0` or `y > x`. -/
noncomputable def binomR (x y : ℤ) : ℝ :=
  if 0 ≤ y ∧ y ≤ x then ((x.toNat).choose y.toNat : ℝ) else 0

/-- Embeds `zp_norm` (per entry): `sqrt(n+1)` when `m = 0`, else `sqrt(2n+2)`. -/
noncomputable def zp_norm (n m : ℤ) : ℝ :=
  if m = 0 then Real.sqrt ((n : ℝ) + 1) else Real.sqrt (2 * (n : ℝ) + 2)

/-- One row of the classical Zernike coefficient matrix, before normalization:
`np.r_[[0]*(n_max - n), [(-1)^k * binom(n-k, k) * binom(n-2k, num-k) if i % 2 == 0
else 0 for i, k in enumerate(np.arange(0, n+1) // 2)]]` with `num = (n - |m|)//2`. -/
noncomputable def zpRow (n_max n mabs : ℤ) : List ℝ :=
  List.replicate (n_max - n).toNat (0 : ℝ) ++
    (List.range (n + 1).toNat).map (fun i =>
      if i % 2 = 0 then
        (-1 : ℝ) ^ (i / 2) * binomR (n - (i / 2 : ℕ)) (i / 2 : ℕ) *
          binomR (n - 2 * (i / 2 : ℕ)) ((n - mabs) / 2 - (i / 2 : ℕ))
      else 0)

/-- Test performed implicitly by `np.array(l)` on a list of rows: building a
2D array succeeds only when all rows have one common length; on ragged rows
(which arise for malformed index pairs, e.g. negative `n` in `zp_get_coeffs`
or `|m| ≥ n + 2` in `gpzp_get_coeffs`) it raises. -/
def sameLengths (rows : List (List ℝ)) : Bool :=
  rows.all (fun r => r.length = (rows.headD []).length)

/-- Embeds `zp_get_coeffs`.  Failure modes modelled as `none`: an empty input
(`N.max()` raises), the parity assertion `assert ((N - |M|) % 2 == 0).all()`,
and ragged rows at `np.array(l)` (possible for entries with `n < -1`, whose
rows are longer than the common width).  Unequal input lengths are a numpy
broadcast error (modelled for the equal-length case used throughout the
module).  Rows are normalized per `zp_norm` when `normalize` is set;
normalization happens after `np.array` in the source, hence after the ragged
check here. -/
noncomputable def zp_get_coeffs (N M : List ℤ) (normalize : Bool) : Option (List (List ℝ)) :=
  if N = [] then none
  else if N.length ≠ M.length then none
  else if (N.zip M).all (fun p => (p.1 - |p.2|) % 2 = 0) then
    if sameLengths ((N.zip M).map (fun p => zpRow (listMaxZ N) p.1 |p.2|)) then
      some ((N.zip M).map (fun p =>
        let r := zpRow (listMaxZ N) p.1 |p.2|
        if normalize then r.map (· * zp_norm p.1 p.2) else r))
    else none
  else none

/-- Value of `scipy.special.poch(x, k)` (rising factorial) at a nonnegative
integer count `k`; counts `k < 0` do not occur in the module. -/
noncomputable def pochR (x : ℝ) (k : ℤ) : ℝ :=
  ∏ j ∈ Finset.range k.toNat, (x + (j : ℝ))

/-- Value of `scipy.special.factorial(x)` at an integer: `x!` for `x ≥ 0`
and `0` for negative `x`. -/
noncomputable def factR (x : ℤ) : ℝ :=
  if 0 ≤ x then (Nat.factorial x.toNat : ℝ) else 0

/-- Embeds `gpzp_norm` (per entry), with `b = n - |m|`. -/
noncomputable def gpzp_norm (n m : ℤ) (alpha : ℝ) : ℝ :=
  let mabs := |m|
  let b := n - mabs
  if m = 0 then
    Real.sqrt (((n : ℝ) + alpha / 2 + 1) * pochR ((b : ℝ) + alpha + 1) (2 * mabs + 1) /
      pochR ((b : ℝ) + 1) (2 * mabs + 1))
  else
    Real.sqrt ((2 * (n : ℝ) + alpha + 2) * pochR ((b : ℝ) + alpha + 1) (2 * mabs + 1) /
      pochR ((b : ℝ) + 1) (2 * mabs + 1))

/-- One row of the generalized pseudo-Zernike coefficient matrix, before
normalization: `[0]*(n_max - n) + [c * (-1)^k * poch(alpha+1, 2n+1-k) /
(k! * (a+1-k)! * (b-k)!) for k in arange(0, b+1)] + [0]*(n - b)` with
`a = n + |m|`, `b = n - |m|`, `c = (a+1)! / poch(alpha+1, a+1)`. -/
noncomputable def gpzpRow (n_max n mabs : ℤ) (alpha : ℝ) : List ℝ :=
  let a := n + mabs
  let b := n - mabs
  let c := factR (a + 1) / pochR (alpha + 1) (a + 1)
  List.replicate (n_max - n).toNat (0 : ℝ) ++
    ((List.range (b + 1).toNat).map (fun (k : ℕ) =>
      c * (-1 : ℝ) ^ k * pochR (alpha + 1) (2 * n + 1 - (k : ℤ)) /
        (factR (k : ℤ) * factR (a + 1 - (k : ℤ)) * factR (b - (k : ℤ))))) ++
    List.replicate (n - b).toNat (0 : ℝ)

/-- Embeds `gpzp_get_coeffs`.  Failure modes modelled as `none`: an empty
input (`N.max()` raises), a length mismatch (broadcast error), and ragged rows
at `np.array(l)` (possible for malformed entries with `|m| ≥ n + 2` or
`n < 0`, whose rows differ from the common width).  Unlike `zp_get_coeffs`
there is no parity assertion in the source. -/
noncomputable def gpzp_get_coeffs (N M : List ℤ) (alpha : ℝ) (normalize : Bool) :
    Option (List (List ℝ)) :=
  if N = [] then none
  else if N.length ≠ M.length then none
  else
    if sameLengths ((N.zip M).map (fun p => gpzpRow (listMaxZ N) p.1 |p.2| alpha)) then
      some ((N.zip M).map (fun p =>
        let r := gpzpRow (listMaxZ N) p.1 |p.2| alpha
        if normalize then r.map (· * gpzp_norm p.1 p.2 alpha) else r))
    else none

/-- Length of a Zernike coefficient row: common width `n_max + 1` for a
well-formed degree `0 ≤ n ≤ n_max`. -/
theorem zpRow_length (n_max n mabs : ℤ) (h0 : 0 ≤ n) (hle : n ≤ n_max) :
    (zpRow n_max n mabs).length = n_max.toNat + 1 := by
  unfold zpRow
  rw [List.length_append, List.length_replicate, List.length_map, List.length_range]
  omega

/-- Length of a generalized pseudo-Zernike coefficient row: common width
`n_max + 1` for a well-formed index pair (`0 ≤ |m| ≤ n ≤ n_max`). -/
theorem gpzpRow_length (n_max n mabs : ℤ) (alpha : ℝ) (h0 : 0 ≤ n)
    (habs : 0 ≤ mabs) (hmn : mabs ≤ n) (hle : n ≤ n_max) :
    (gpzpRow n_max n mabs alpha).length = n_max.toNat + 1 := by
  simp only [gpzpRow, List.length_append, List.length_replicate,
    List.length_map, List.length_range]
  omega

/-- A list of rows of one common length passes the `np.array` shape test. -/
theorem rows_sameLengths_of_const (rows : List (List ℝ)) (L : ℕ)
    (h : ∀ r ∈ rows, r.length = L) : sameLengths rows = true := by
  unfold sameLengths
  rw [List.all_eq_true]
  intro r hr
  cases rows with
  | nil => cases hr
  | cons x xs =>
    have hx : x.length = L := h x (List.mem_cons_self x xs)
    have hrL : r.length = L := h r hr
    simp [hrL, hx]

/-- For well-formed index pairs the Zernike rows all have the common width,
so `np.array` succeeds. -/
theorem zp_rows_sameLengths (N M : List ℤ)
    (hdom : ∀ p ∈ N.zip M, 0 ≤ p.1 ∧ |p.2| ≤ p.1) :
    sameLengths ((N.zip M).map (fun p => zpRow (listMaxZ N) p.1 |p.2|)) = true := by
  apply rows_sameLengths_of_const _ ((listMaxZ N).toNat + 1)
  intro r hr
  obtain ⟨p, hp, rfl⟩ := List.mem_map.mp hr
  obtain ⟨h0, habs⟩ := hdom p hp
  obtain ⟨pa, pb⟩ := p
  exact zpRow_length _ _ _ h0 (le_listMaxZ (List.of_mem_zip hp).1)

/-- For well-formed index pairs the generalized pseudo-Zernike rows all have
the common width, so `np.array` succeeds. -/
theorem gpzp_rows_sameLengths (N M : List ℤ) (alpha : ℝ)
    (hdom : ∀ p ∈ N.zip M, 0 ≤ p.1 ∧ |p.2| ≤ p.1) :
    sameLengths ((N.zip M).map (fun p => gpzpRow (listMaxZ N) p.1 |p.2| alpha)) = true := by
  apply rows_sameLengths_of_const _ ((listMaxZ N).toNat + 1)
  intro r hr
  obtain ⟨p, hp, rfl⟩ := List.mem_map.mp hr
  obtain ⟨h0, habs⟩ := hdom p hp
  obtain ⟨pa, pb⟩ := p
  exact gpzpRow_length _ _ _ alpha h0 (abs_nonneg pb) habs
    (le_listMaxZ (List.of_mem_zip hp).1)

/-- Modelled from the spec: the index bijection `linearIndex(n, m, alpha) → j`
(`nm2j` of the external `.utils` module, not in `src/`), "a canonical linear
index j enumerates all valid (n, m) pairs up to a maximum n in a fixed,
externally-defined order".  The classical (alpha = None) branch uses the
standard OSA/ANSI single-index scheme; the generalized branch enumerates all
pairs with `|m| ≤ n`. -/
def nm2j (n m : ℤ) (alpha : Option ℝ) : ℤ :=
  match alpha with
  | none => (n * (n + 2) + m) / 2
  | some _ => n * (n + 1) + m

/-- Modelled from the spec: the "complex-folded" index variant
(`nm2j_complex` of the external `.utils` module), which "maps (n, |m|) pairs
with duplicate collapsing": the two columns `(n, m)` and `(n, -m)` receive the
same folded index. -/
def nm2j_complex (n mabs : ℤ) (alpha : Option ℝ) : ℤ :=
  nm2j n mabs alpha

/-- Modelled from the spec: the inverse index bijection `indexToNM(j, alpha)`
(`j2nm` of the external `.utils` module, not in `src/`). -/
def j2nm (j : ℕ) (alpha : Option ℝ) : ℤ × ℤ :=
  match alpha with
  | none =>
    let d := (((List.range (j + 1)).filter (fun d => 2 * j ≤ d * (d + 3))).headD 0 : ℕ)
    ((d : ℤ), (2 * j : ℤ) - (d : ℤ) * ((d : ℤ) + 2))
  | some _ =>
    let d := Nat.sqrt j
    ((d : ℤ), (j : ℤ) - (d : ℤ) * ((d : ℤ) + 1))

/-- Moment array (`zmarray`): a 2D buffer of shape `rows × cols` with the
parallel per-column metadata `n`, `m`, the shared scalar `alpha`, and the dtype
flag `isComplex` (numpy real vs. complex dtype).  Buffers are total functions;
only indices below the stated shape are meaningful. -/
@[ext]
structure zmarray where
  rows : ℕ
  cols : ℕ
  buf : ℕ → ℕ → ℂ
  n : ℕ → ℤ
  m : ℕ → ℤ
  alpha : Option ℝ
  isComplex : Bool

/-- Embeds `_get_m_states(m, states)` (leading underscore dropped for Lean).
The `states` argument is `None`, a single integer, or an iterable. -/
inductive MStatesArg where
  | noneArg : MStatesArg
  | intArg (v : ℤ) : MStatesArg
  | arrArg (vs : List ℤ) : MStatesArg

/-- Resolution of the azimuthal-state filter, following `_get_m_states`:
`None` gives `list(set(np.abs(m)))`; a single negative value gives the sorted
distinct nonzero `|m|`; a single non-negative value gives `[states]`; an
iterable gives `np.unique(np.abs(states))`. -/
def get_m_states (m : ℕ → ℤ) (N : ℕ) (states : MStatesArg) : List ℤ :=
  match states with
  | .noneArg => ((List.range N).map (fun i => |m i|)).dedup
  | .intArg v =>
    if v < 0 then
      ((((List.range N).map (fun i => |m i|)).toFinset).sort (· ≤ ·)).filter (fun x => x ≠ 0)
    else [v]
  | .arrArg vs => ((vs.map (fun x => |x|)).toFinset).sort (· ≤ ·)

/-- Column indices retained by the state filter:
`np.where(np.in1d(np.abs(m), states))[0]`. -/
def selIndices (m : ℕ → ℤ) (N : ℕ) (S : List ℤ) : List ℕ :=
  (List.range N).filter (fun i => |m i| ∈ S)

/-- Embeds `zmarray.select(states)`: keeps the columns whose `|m|` is in the
resolved state set, with their metadata. -/
def zmarray.select (z : zmarray) (states : MStatesArg) : zmarray :=
  let ind := selIndices z.m z.cols (get_m_states z.m z.cols states)
  { rows := z.rows
    cols := ind.length
    buf := fun s j => z.buf s (ind.getD j 0)
    n := fun j => z.n (ind.getD j 0)
    m := fun j => z.m (ind.getD j 0)
    alpha := z.alpha
    isComplex := z.isComplex }

/-- Sorted distinct folded indices `uniq_j2 = np.unique(nm2j_complex(n, |m|, alpha))`
used by `construct_complex_matrix`. -/
def uniqJ2 (n m : ℕ → ℤ) (N : ℕ) (alpha : Option ℝ) : List ℤ :=
  (((List.range N).map (fun i => nm2j_complex (n i) |m i| alpha)).toFinset).sort (· ≤ ·)

/-- Embeds `construct_complex_matrix`: entry `(r, c)` is `1` (for `m ≥ 0`) or
`1j` (for `m < 0`) when row `r` is the rank of column `c`'s folded index in
`uniq_j2`, and `0` elsewhere. -/
def construct_complex_matrix (n m : ℕ → ℤ) (N : ℕ) (alpha : Option ℝ) : ℕ → ℕ → ℂ :=
  fun r c =>
    if c < N ∧ r < (uniqJ2 n m N alpha).length ∧
        (uniqJ2 n m N alpha).getD r 0 = nm2j_complex (n c) |m c| alpha then
      (if 0 ≤ m c then 1 else Complex.I)
    else 0

/-- Embeds `zmarray.complex()`.  On a real-dtype array it folds the paired
real columns into complex columns through `construct_complex_matrix` and
recomputes the metadata from the fold matrix (with the `1j` entries zeroed
first, as in `c_matrix[c_matrix == 1j] = 0`; `astype(int)` on the exact integer
results is modelled by the floor of the real part).  On an already-complex
array the source returns `self` unchanged. -/
noncomputable def zmarray.complex (z : zmarray) : zmarray :=
  if z.isComplex then z
  else
    let u := uniqJ2 z.n z.m z.cols z.alpha
    let C := construct_complex_matrix z.n z.m z.cols z.alpha
    let Cz : ℕ → ℕ → ℂ := fun r c => if C r c = Complex.I then 0 else C r c
    { rows := z.rows
      cols := u.length
      buf := fun s r => ∑ c ∈ Finset.range z.cols, C r c * z.buf s c
      n := fun r => ⌊(∑ c ∈ Finset.range z.cols, Cz r c * ((|z.n c| : ℤ) : ℂ)).re⌋
      m := fun r => ⌊(∑ c ∈ Finset.range z.cols, Cz r c * ((|z.m c| : ℤ) : ℂ)).re⌋
      alpha := z.alpha
      isComplex := true }

/-- In-place column update performed inside `rotinv`:
`zm_complex[:, ~mask] = np.abs(zm_complex[:, ~mask])` with `mask = (m == 0)`,
i.e. every entry in a column with `m ≠ 0` is replaced by its complex modulus. -/
noncomputable def writeAbs (zc : zmarray) : zmarray :=
  { zc with
    buf := fun s i =>
      if i < zc.cols ∧ zc.m i ≠ 0 then ((Complex.abs (zc.buf s i) : ℝ) : ℂ)
      else zc.buf s i }

/-- Embeds `zmarray.rotinv()` together with its frame effect.  The first
component is the returned moment array; the second component is the state of
the receiver after the call.  `zm_complex = self.complex()` is the receiver
itself (aliased, not a copy) whenever `self` already has complex dtype, so the
in-place write `zm_complex[:, ~mask] = ...` then mutates the receiver. -/
noncomputable def zmarray.rotinv (z : zmarray) : zmarray × zmarray :=
  let zc := z.complex
  let zc2 := writeAbs zc
  (⟨zc2.rows, zc2.cols, fun s i => (((zc2.buf s i).re : ℝ) : ℂ), zc2.n, zc2.m, z.alpha, false⟩,
    if z.isComplex then zc2 else z)

/-- Value of `np.deg2rad`. -/
noncomputable def deg2rad (x : ℝ) : ℝ := x * (Real.pi / 180)

/-- Embeds `construct_rot_matrix(n, m, theta, alpha)`.  The source fills a zero
`len(n) × len(n)` matrix row by row: row `i` gets `1` at column
`nm2j(n_i, m_i)` when `m_i = 0`; for `m_i < 0` it gets `cos(θ|m_i|)` at column
`nm2j(n_i, m_i)` and `-sin(θ|m_i|)` at column `nm2j(n_i, -m_i)`; for `m_i > 0`
it gets `cos(θ m_i)` at `nm2j(n_i, m_i)` and `sin(θ m_i)` at `nm2j(n_i, -m_i)`.
Each row is written once, so the matrix is given entrywise; the later of the
two writes wins when the two column indices collide, hence the `nm2j(n_i, -m_i)`
test comes first.  (numpy would wrap or reject an out-of-range column index;
under the canonical layouts used by the theorems all indices are in range.) -/
noncomputable def construct_rot_matrix (n m : ℕ → ℤ) (N : ℕ) (theta : ℝ)
    (alpha : Option ℝ) : ℕ → ℕ → ℝ :=
  fun i j =>
    if i < N then
      if m i = 0 then (if (j : ℤ) = nm2j (n i) (m i) alpha then 1 else 0)
      else if m i < 0 then
        (if (j : ℤ) = nm2j (n i) (-(m i)) alpha then
          -Real.sin (deg2rad theta * ((-(m i) : ℤ) : ℝ))
        else if (j : ℤ) = nm2j (n i) (m i) alpha then
          Real.cos (deg2rad theta * ((-(m i) : ℤ) : ℝ))
        else 0)
      else
        (if (j : ℤ) = nm2j (n i) (-(m i)) alpha then
          Real.sin (deg2rad theta * ((m i : ℤ) : ℝ))
        else if (j : ℤ) = nm2j (n i) (m i) alpha then
          Real.cos (deg2rad theta * ((m i : ℤ) : ℝ))
        else 0)
    else 0

/-- Embeds `construct_ref_matrix(n, m, theta, alpha)` (reflection), with
`theta' = 2 * deg2rad(theta)`: row `i` gets `1` at `nm2j(n_i, m_i)` when
`m_i = 0`; for `m_i < 0`, `-cos` at `nm2j(n_i, m_i)` and `-sin` at
`nm2j(n_i, -m_i)`; for `m_i > 0`, `cos` at `nm2j(n_i, m_i)` and `-sin` at
`nm2j(n_i, -m_i)`. -/
noncomputable def construct_ref_matrix (n m : ℕ → ℤ) (N : ℕ) (theta : ℝ)
    (alpha : Option ℝ) : ℕ → ℕ → ℝ :=
  fun i j =>
    if i < N then
      if m i = 0 then (if (j : ℤ) = nm2j (n i) (m i) alpha then 1 else 0)
      else if m i < 0 then
        (if (j : ℤ) = nm2j (n i) (-(m i)) alpha then
          -Real.sin (2 * deg2rad theta * ((-(m i) : ℤ) : ℝ))
        else if (j : ℤ) = nm2j (n i) (m i) alpha then
          -Real.cos (2 * deg2rad theta * ((-(m i) : ℤ) : ℝ))
        else 0)
      else
        (if (j : ℤ) = nm2j (n i) (-(m i)) alpha then
          -Real.sin (2 * deg2rad theta * ((m i : ℤ) : ℝ))
        else if (j : ℤ) = nm2j (n i) (m i) alpha then
          Real.cos (2 * deg2rad theta * ((m i : ℤ) : ℝ))
        else 0)
    else 0

/-- Embeds `zmarray.rot(theta)`: applies the rotation operator
(`rot_matrix.dot(self.T).T`), returning a new array with the same metadata.
The source calls `construct_rot_matrix(self.n, self.m, theta)` with the
default `alpha=None` regardless of `self.alpha`. -/
noncomputable def zmarray.rot (z : zmarray) (theta : ℝ) : zmarray :=
  { z with
    buf := fun s i => ∑ j ∈ Finset.range z.cols,
      ((construct_rot_matrix z.n z.m z.cols theta none i j : ℝ) : ℂ) * z.buf s j }

/-- Embeds `zmarray.ref(theta)`: applies the reflection operator, likewise
with the default `alpha=None`. -/
noncomputable def zmarray.ref (z : zmarray) (theta : ℝ) : zmarray :=
  { z with
    buf := fun s i => ∑ j ∈ Finset.range z.cols,
      ((construct_ref_matrix z.n z.m z.cols theta none i j : ℝ) : ℂ) * z.buf s j }

/-- Embeds `construct_rot_weight_matrix(n_fold, m)`: fails (assert) when
`n_fold == 1`; otherwise the weight for column `i` is
`(sum over k in arange(1, n_fold) of cos(|m_i| * 2π / n_fold * k)) / (n_fold - 1)`. -/
noncomputable def construct_rot_weight_matrix (n_fold : ℕ) (m : ℕ → ℤ) :
    Option (ℕ → ℝ) :=
  if n_fold = 1 then none
  else
    some (fun i =>
      (∑ k ∈ Finset.Ico 1 n_fold,
        Real.cos (((|m i| : ℤ) : ℝ) * 2 * Real.pi / (n_fold : ℝ) * (k : ℝ))) /
      ((n_fold : ℝ) - 1))

/-- Embeds `zmarray.maps(n_fold)`: builds the weight vector first (so
`n_fold = 1` fails before any other work), zeroes the `|m| ∈ {0, 1}` columns of
a copy, L2-normalizes the rows, squares them, and projects onto the weights.
The optional reshape of the flat result into a square map when the number of
samples is a perfect square is presentational and is not modelled; the result
here is the flat per-sample score vector `ss = t2.dot(a)[:, 0]`. -/
noncomputable def zmarray.maps (z : zmarray) (n_fold : ℕ) : Option (ℕ → ℂ) :=
  match construct_rot_weight_matrix n_fold z.m with
  | none => none
  | some a =>
    let t : ℕ → ℕ → ℂ := fun s i =>
      if |z.m i| = 0 ∨ |z.m i| = 1 then 0 else z.buf s i
    let nn : ℕ → ℝ := fun s =>
      Real.sqrt (∑ i ∈ Finset.range z.cols, (Complex.abs (t s i)) ^ 2)
    let t2 : ℕ → ℕ → ℂ := fun s i => (t s i / ((nn s : ℝ) : ℂ)) ^ 2
    some (fun s => ∑ i ∈ Finset.range z.cols, t2 s i * ((a i : ℝ) : ℂ))

/-- Norm selector of `sklearn.preprocessing.normalize` (`l1`, `l2` or `max`). -/
inductive NormKind where
  | l1 : NormKind
  | l2 : NormKind
  | maxn : NormKind

/-- Row norms as computed by `sklearn.preprocessing.normalize(X, axis=1, norm=...)`. -/
noncomputable def sknorm_row (buf : ℕ → ℕ → ℂ) (cols : ℕ) (nk : NormKind) (s : ℕ) : ℝ :=
  match nk with
  | .l1 => ∑ i ∈ Finset.range cols, Complex.abs (buf s i)
  | .l2 => Real.sqrt (∑ i ∈ Finset.range cols, (Complex.abs (buf s i)) ^ 2)
  | .maxn => ((List.range cols).map (fun i => Complex.abs (buf s i))).foldr max 0

/-- Embeds `zmarray.normalize(norm)`: for a non-complex dtype it returns
`zmarray(normalize(self, axis=1, norm=norm), self.n, self.m)` — note that
`alpha` is NOT passed on, so the result carries the constructor default
`alpha = None`; rows of norm zero are kept as-is (sklearn sets zero norms to
one).  For a complex dtype the receiver itself is returned. -/
noncomputable def zmarray.normalize (z : zmarray) (nk : NormKind) : zmarray :=
  if z.isComplex then z
  else
    { rows := z.rows
      cols := z.cols
      buf := fun s i =>
        z.buf s i /
          (((if sknorm_row z.buf z.cols nk s = 0 then 1 else sknorm_row z.buf z.cols nk s) : ℝ) : ℂ)
      n := z.n
      m := z.m
      alpha := none
      isComplex := false }

/-- A 2D numpy array: shape plus entries. -/
structure Arr2 where
  d0 : ℕ
  d1 : ℕ
  val : ℕ → ℕ → ℝ

/-- A 3D numpy array: shape plus entries. -/
structure Arr3 where
  d0 : ℕ
  d1 : ℕ
  d2 : ℕ
  val : ℕ → ℕ → ℕ → ℝ

/-- Input batches accepted by `fit`: a single 2D image or a 3D stack. -/
inductive NDArr where
  | d2 (A : Arr2) : NDArr
  | d3 (A : Arr3) : NDArr

/-- Modelled from the spec: radius field of the grid sampler
(`grid_rt` of the external `.utils` module, not in `src/`): "polarGrid(size) →
(radius[size,size], angle[size,size]), radius normalized so the unit disk
boundary is at radius = 1", masked to zero outside the unit disk. -/
noncomputable def grid_r (size : ℕ) (i j : ℕ) : ℝ :=
  let c : ℝ := ((size : ℝ) - 1) / 2
  let d := Real.sqrt (((i : ℝ) - c) ^ 2 + ((j : ℝ) - c) ^ 2) / ((size : ℝ) / 2)
  if d ≤ 1 then d else 0

/-- Modelled from the spec: angle field of the grid sampler (`grid_rt`). -/
noncomputable def grid_t (size : ℕ) (i j : ℕ) : ℝ :=
  let c : ℝ := ((size : ℝ) - 1) / 2
  Complex.arg (Complex.mk ((j : ℝ) - c) ((i : ℝ) - c))

/-- Embeds `get_Rn_matrix(n, size, alpha)`: rows `r^p * w` for
`p = n_max .. 1` followed by `disk * w`, flattened over the pixel grid; the
disk mask is `(r > 0)` with the center pixel forced to `1`, and
`w = (1 - r)^(alpha/2) * disk` for the generalized family (else `1`). -/
noncomputable def get_Rn_matrix (n : List ℤ) (size : ℕ) (alpha : Option ℝ) :
    ℕ → ℕ → ℝ :=
  let n_max := (listMaxZ n).toNat
  fun q k =>
    let i := k / size
    let j := k % size
    let r := grid_r size i j
    let disk : ℝ := if (i = size / 2 ∧ j = size / 2) ∨ 0 < r then 1 else 0
    let w : ℝ :=
      match alpha with
      | none => 1
      | some a => (1 - r) ^ (a / 2) * disk
    if q < n_max then r ^ (n_max - q) * w else disk * w

/-- Embeds `get_mt_matrix(m, size)`: row `c` is `cos(|m_c| * t)` when
`m_c ≥ 0`, else `sin(|m_c| * t)`, over the flattened angle field. -/
noncomputable def get_mt_matrix (m : List ℤ) (size : ℕ) : ℕ → ℕ → ℝ :=
  fun c k =>
    let t := grid_t size (k / size) (k % size)
    if 0 ≤ m.getD c 0 then Real.cos (((|m.getD c 0| : ℤ) : ℝ) * t)
    else Real.sin (((|m.getD c 0| : ℤ) : ℝ) * t)

/-- Embeds `generate_data_from_nm(n, m, size, alpha, reshape=True)`:
`(c_matrix.dot(Rn_matrix) * mt_matrix).reshape(rows, size, size)`, where the
coefficient matrix comes from `zp_get_coeffs` (alpha None) or
`gpzp_get_coeffs`; a coefficient-generation failure propagates. -/
noncomputable def generate_data_from_nm (n m : List ℤ) (size : ℕ)
    (alpha : Option ℝ) : Option Arr3 :=
  match (match alpha with
         | none => zp_get_coeffs n m true
         | some a => gpzp_get_coeffs n m a true) with
  | none => none
  | some c =>
    some ⟨c.length, size, size, fun p i j =>
      (∑ q ∈ Finset.range ((listMaxZ n).toNat + 1),
        (c.getD p []).getD q 0 * get_Rn_matrix n size alpha q (i * size + j)) *
        get_mt_matrix m size p (i * size + j)⟩

/-- Configured extractor state, as set up by `ZPs.__init__`: the index
metadata after the state filter, the cached basis tensor, and the scalar
configuration. -/
structure ZPsState where
  n_max : ℕ
  size : ℕ
  alpha : Option ℝ
  states : MStatesArg
  n : List ℤ
  m : List ℤ
  n_components : ℕ
  data : Arr3

/-- Embeds `ZPs.__init__(n_max, size, alpha, states)`: builds the full index
lists from the bijection up to `j_max = nm2j(n_max, n_max, alpha)`, filters
them through `_get_m_states` / `np.in1d` (the same resolution used by
`zmarray.select`), and caches the basis tensor. -/
noncomputable def ZPs.init (n_max size : ℕ) (alpha : Option ℝ)
    (states : MStatesArg) : Option ZPsState :=
  let j_max := (nm2j (n_max : ℤ) (n_max : ℤ) alpha).toNat
  let pairs := (List.range (j_max + 1)).map (fun j => j2nm j alpha)
  let nF := pairs.map Prod.fst
  let mF := pairs.map Prod.snd
  let mFun : ℕ → ℤ := fun i => mF.getD i 0
  let S := get_m_states mFun mF.length states
  let ind := selIndices mFun mF.length S
  let nSel := ind.map (fun i => nF.getD i 0)
  let mSel := ind.map (fun i => mF.getD i 0)
  match generate_data_from_nm nSel mSel size alpha with
  | none => none
  | some data => some ⟨n_max, size, alpha, states, nSel, mSel, nSel.length, data⟩

/-- The five extraction strategies selected by the `method` string. -/
inductive Method where
  | matrix : Method
  | direct : Method
  | transpose : Method
  | pseudo : Method
  | fftconv : Method

/-- Validation performed by `sklearn.utils.check_array`: rejects empty arrays. -/
def checkArrayOK : NDArr → Bool
  | .d2 A => decide (0 < A.d0) && decide (0 < A.d1)
  | .d3 A => decide (0 < A.d0) && decide (0 < A.d1) && decide (0 < A.d2)

/-- Reshape to `(X.shape[0], -1)` as done at the top of the `matrix`,
`transpose` and `pseudo` branches: a 2D input is left as is, a 3D stack is
flattened per sample. -/
def toSamples : NDArr → Arr2
  | .d2 A => A
  | .d3 A => ⟨A.d0, A.d1 * A.d2, fun s k => A.val s (k / A.d2) (k % A.d2)⟩

/-- The cached basis tensor flattened to `(N, size*size)`
(`self.data.reshape(N, -1)`). -/
def dataFlat (z : ZPsState) : Arr2 :=
  ⟨z.data.d0, z.data.d1 * z.data.d2,
   fun i k => z.data.val i (k / z.data.d2) (k % z.data.d2)⟩

/-- Embeds the `matrix` branch of `fit`:
`moments = inv(data_ @ data_.T) @ data_ @ X.T`, stored transposed.
`np.linalg.inv` raises `LinAlgError` on a singular Gram matrix (modelled by
the determinant test, evaluated before the shape of `X` is consulted, as in
the source's evaluation order); the following matrix product requires the
feature count of `X` to equal `size*size`. -/
noncomputable def matrixStrategy (z : ZPsState) (X : Arr2) : Option zmarray :=
  let N := z.data.d0
  let D := dataFlat z
  let G : Matrix (Fin N) (Fin N) ℝ :=
    Matrix.of fun i j => ∑ k ∈ Finset.range D.d1, D.val i k * D.val j k
  if G.det = 0 then none
  else if X.d1 = D.d1 then
    let IG := G⁻¹
    let M1 : ℕ → ℕ → ℝ := fun i k => ∑ j ∈ Finset.range N,
      (if h1 : i < N then (if h2 : j < N then IG ⟨i, h1⟩ ⟨j, h2⟩ else 0) else 0) * D.val j k
    let Mo : ℕ → ℕ → ℝ := fun i s => ∑ k ∈ Finset.range D.d1, M1 i k * X.val s k
    some ⟨X.d0, N, fun s i => ((Mo i s : ℝ) : ℂ),
      fun i => z.n.getD i 0, fun i => z.m.getD i 0, z.alpha, false⟩
  else none

/-- Embeds the `direct` branch of `fit`: per-sample, per-polynomial sum of the
elementwise product `(p * zp).sum()`, divided by `(s*s/4) * π` with
`s = X.shape[1]`, reshaped to `(n_samples, num_zps)`.  The elementwise product
follows numpy broadcasting: for a 2D input each sample `p` is a row vector
broadcast against each `(size, size)` basis slice (compatible when the lengths
match or either is 1); for a 3D input each sample is a 2D image broadcast
against the slice per axis. -/
noncomputable def directStrategy (z : ZPsState) (X : NDArr) : Option zmarray :=
  match X with
  | .d2 A =>
    if (A.d1 = z.data.d2 ∨ A.d1 = 1 ∨ z.data.d2 = 1) ∧ z.data.d0 = z.n.length then
      some ⟨A.d0, z.data.d0, fun s c =>
        (((∑ i ∈ Finset.range z.data.d1, ∑ j ∈ Finset.range (max z.data.d2 A.d1),
            A.val s (if A.d1 = 1 then 0 else j) *
              z.data.val c i (if z.data.d2 = 1 then 0 else j))
          / ((A.d1 : ℝ) * (A.d1 : ℝ) / 4) / Real.pi : ℝ) : ℂ),
        fun i => z.n.getD i 0, fun i => z.m.getD i 0, z.alpha, false⟩
    else none
  | .d3 A =>
    if ((A.d1 = z.data.d1 ∨ A.d1 = 1 ∨ z.data.d1 = 1) ∧
        (A.d2 = z.data.d2 ∨ A.d2 = 1 ∨ z.data.d2 = 1)) ∧ z.data.d0 = z.n.length then
      some ⟨A.d0, z.data.d0, fun s c =>
        (((∑ i ∈ Finset.range (max z.data.d1 A.d1), ∑ j ∈ Finset.range (max z.data.d2 A.d2),
            A.val s (if A.d1 = 1 then 0 else i) (if A.d2 = 1 then 0 else j) *
              z.data.val c (if z.data.d1 = 1 then 0 else i) (if z.data.d2 = 1 then 0 else j))
          / ((A.d1 : ℝ) * (A.d1 : ℝ) / 4) / Real.pi : ℝ) : ℂ),
        fun i => z.n.getD i 0, fun i => z.m.getD i 0, z.alpha, false⟩
    else none

/-- Embeds the `transpose` branch of `fit`: `X @ data_.T / (π d²/4)` with
`d = int(sqrt(X.shape[1]))`. -/
noncomputable def transposeStrategy (z : ZPsState) (X : Arr2) : Option zmarray :=
  let D := dataFlat z
  if X.d1 = D.d1 then
    let d := Nat.sqrt X.d1
    let area : ℝ := Real.pi * (d : ℝ) * (d : ℝ) / 4
    some ⟨X.d0, D.d0, fun s c =>
      (((∑ k ∈ Finset.range D.d1, X.val s k * D.val c k) / area : ℝ) : ℂ),
      fun i => z.n.getD i 0, fun i => z.m.getD i 0, z.alpha, false⟩
  else none

/-- Modelled from the spec: the Moore–Penrose pseudo-inverse `np.linalg.pinv`
(an external numpy routine; the spec calls the strategy the "Moore–Penrose
pseudo-inverse of the basis matrix applied to images").  Given the full-rank
closed forms when one of the Gram matrices is invertible; the rank-deficient
remainder is left as the zero matrix (its value is never inspected by the
theorems below). -/
noncomputable def pinvVal (D : Arr2) : ℕ → ℕ → ℝ :=
  let A : Matrix (Fin D.d0) (Fin D.d1) ℝ := Matrix.of fun i j => D.val i j
  fun k i =>
    if hk : k < D.d1 then
      if hi : i < D.d0 then
        if (A * A.transpose).det ≠ 0 then (A.transpose * (A * A.transpose)⁻¹) ⟨k, hk⟩ ⟨i, hi⟩
        else if (A.transpose * A).det ≠ 0 then ((A.transpose * A)⁻¹ * A.transpose) ⟨k, hk⟩ ⟨i, hi⟩
        else 0
      else 0
    else 0

/-- Embeds the `pseudo` branch of `fit`: `X @ pinv(data_)`. -/
noncomputable def pseudoStrategy (z : ZPsState) (X : Arr2) : Option zmarray :=
  let D := dataFlat z
  if X.d1 = D.d1 then
    some ⟨X.d0, D.d0, fun s c =>
      ((∑ k ∈ Finset.range D.d1, X.val s k * pinvVal D k c : ℝ) : ℂ),
      fun i => z.n.getD i 0, fun i => z.m.getD i 0, z.alpha, false⟩
  else none

/-- Embeds the `fftconv` branch of `fit`:
`fftconvolve(X, self.data, mode='same', axes=[1,2])` (mathematically a
same-mode 2D convolution per channel, channels broadcast on axis 0), followed
by the parity sign correction `f`, division by `π (data.shape[1])² / 4`, and
`reshape(len(m), -1).T`. -/
noncomputable def fftconvStrategy (z : ZPsState) (A : Arr3) : Option zmarray :=
  if A.d0 = z.data.d0 ∨ A.d0 = 1 ∨ z.data.d0 = 1 then
    let out0 := max A.d0 z.data.d0
    if z.n.length = out0 ∨ z.n.length = 1 ∨ out0 = 1 then
      let off1 := (z.data.d1 - 1) / 2
      let off2 := (z.data.d2 - 1) / 2
      let conv : ℕ → ℕ → ℕ → ℝ := fun c i j =>
        ∑ p ∈ Finset.range z.data.d1, ∑ q ∈ Finset.range z.data.d2,
          (if 0 ≤ (i + off1 : ℤ) - p ∧ (i + off1 : ℤ) - p < A.d1 ∧
               0 ≤ (j + off2 : ℤ) - q ∧ (j + off2 : ℤ) - q < A.d2 then
            z.data.val (if z.data.d0 = 1 then 0 else c) p q *
              A.val (if A.d0 = 1 then 0 else c)
                ((i + off1 : ℤ) - p).toNat ((j + off2 : ℤ) - q).toNat
          else 0)
      let f : ℕ → ℝ := fun c => if (z.n.getD c 0) % 2 = 0 then 1 else -1
      let area : ℝ := Real.pi * (z.data.d1 : ℝ) ^ 2 / 4
      let scaled : ℕ → ℕ → ℕ → ℝ := fun c i j => conv c i j * f c / area
      let mlen := z.m.length
      let total := out0 * A.d1 * A.d2
      if 0 < mlen ∧ mlen ∣ total then
        let rowlen := total / mlen
        some ⟨rowlen, mlen, fun s c =>
          ((scaled ((c * rowlen + s) / (A.d1 * A.d2))
              (((c * rowlen + s) % (A.d1 * A.d2)) / A.d2)
              ((c * rowlen + s) % A.d2) : ℝ) : ℂ),
          fun i => z.n.getD i 0, fun i => z.m.getD i 0, z.alpha, false⟩
      else none
    else none
  else none

/-- Strategy dispatch of `fit` over the method selector; `fftconv` on a 2D
input is a `fftconvolve` dimensionality error. -/
noncomputable def runMethod (z : ZPsState) (X : NDArr) (meth : Method) :
    Option zmarray :=
  match meth with
  | .matrix => matrixStrategy z (toSamples X)
  | .direct => directStrategy z X
  | .transpose => transposeStrategy z (toSamples X)
  | .pseudo => pseudoStrategy z (toSamples X)
  | .fftconv =>
    match X with
    | .d2 _ => none
    | .d3 A => fftconvStrategy z A

/-- Embeds `ZPs.fit(X, method)`: after `check_array`, a single 2D image whose
first side equals `self.data.shape[1]` becomes a batch of one with the
requested method; one whose first side is larger is broadcast to
`(n_components_, h, w)` with the method forced to `fftconv`; anything else is
passed to the strategies unchanged. -/
noncomputable def ZPs.fit (z : ZPsState) (X : NDArr) (meth : Method) :
    Option zmarray :=
  if checkArrayOK X then
    match X with
    | .d2 A =>
      if A.d0 = z.data.d1 then
        runMethod z (.d3 ⟨1, A.d0, A.d1, fun _ i j => A.val i j⟩) meth
      else if z.data.d1 < A.d0 then
        runMethod z (.d3 ⟨z.n_components, A.d0, A.d1, fun _ i j => A.val i j⟩) .fftconv
      else runMethod z (.d2 A) meth
    | .d3 A => runMethod z (.d3 A) meth
  else none

/-- Representative of `theta mod 360` used for the rotation-composition claim. -/
noncomputable def fmod360 (x : ℝ) : ℝ := x - 360 * (⌊x / 360⌋ : ℤ)

/-- Canonical column layout of a moment array under the classical index
bijection: column `i` carries the pair whose linear index is `i`, and the
partner column with the negated azimuthal index is present.  This is the
layout produced by enumerating `j2nm` over a full index range, and it is what
`construct_rot_matrix` (which looks columns up through `nm2j`) relies on. -/
def CanonicalLayout (n m : ℕ → ℤ) (N : ℕ) : Prop :=
  ∀ i, i < N → nm2j (n i) (m i) none = (i : ℤ) ∧
    ∃ p, p < N ∧ (p : ℤ) = nm2j (n i) (-(m i)) none ∧ n p = n i ∧ m p = -(m i)

instance (n m : ℕ → ℤ) (N : ℕ) : Decidable (CanonicalLayout n m N) := by
  unfold CanonicalLayout
  infer_instance

/-- Claim C1 (counterexample): on the parity-violating input `n = [1]`,
`m = [0]` (so `n - |m| = 1` is odd), `zp_get_coeffs` fails with the assertion
error, but `gpzp_get_coeffs` performs no parity check and succeeds — so it is
not the case that coefficient generation for both families fails on such
input. -/
theorem gpzp_parity_cx :
    zp_get_coeffs [1] [0] true = none ∧
      (gpzp_get_coeffs [1] [0] 0 true).isSome = true := by
  constructor
  · rfl
  · rfl

/-- Claim C1 (amended): for every nonempty equal-length index pair,
`zp_get_coeffs` fails whenever some entry has `n - |m|` odd (the parity
assertion fires before any row is built); and on well-formed index pairs
(`0 ≤ n` and `|m| ≤ n` per entry, so that `np.array` sees rows of one common
width) `zp_get_coeffs` fails exactly on parity violations while
`gpzp_get_coeffs` performs no parity check at all and succeeds even on
parity-violating entries such as `(1, 0)`. -/
theorem coeff_parity_amended (N M : List ℤ) (a : ℝ) (nrm : Bool)
    (hne : N ≠ []) (hlen : N.length = M.length) :
    ((∃ p ∈ N.zip M, (p.1 - |p.2|) % 2 ≠ 0) → zp_get_coeffs N M nrm = none) ∧
    ((∀ p ∈ N.zip M, 0 ≤ p.1 ∧ |p.2| ≤ p.1) →
      ((zp_get_coeffs N M nrm = none ↔ ∃ p ∈ N.zip M, (p.1 - |p.2|) % 2 ≠ 0) ∧
        (gpzp_get_coeffs N M a nrm).isSome = true)) := by
  constructor
  · rintro ⟨p, hp, hodd⟩
    unfold zp_get_coeffs
    rw [if_neg hne, if_neg (by simp [hlen]), if_neg]
    intro hall
    rw [List.all_eq_true] at hall
    exact hodd (by simpa using hall p hp)
  · intro hdom
    constructor
    · unfold zp_get_coeffs
      rw [if_neg hne, if_neg (by simp [hlen])]
      by_cases hall : (N.zip M).all (fun p => (p.1 - |p.2|) % 2 = 0)
      · rw [if_pos hall, if_pos (zp_rows_sameLengths N M hdom)]
        simp only [List.all_eq_true, decide_eq_true_eq] at hall
        constructor
        · intro h; cases h
        · rintro ⟨p, hp, hodd⟩; exact absurd (hall p hp) hodd
      · rw [if_neg hall]
        simp only [List.all_eq_true, decide_eq_true_eq] at hall
        push_neg at hall
        simpa using hall
    · unfold gpzp_get_coeffs
      rw [if_neg hne, if_neg (by simp [hlen]),
        if_pos (gpzp_rows_sameLengths N M a hdom)]
      rfl

/-- Claim C1 (witness for the amended theorem) at the well-formed but
parity-violating input `n = [1]`, `m = [0]`: the classical generator fails,
the generalized one succeeds. -/
theorem coeff_parity_amended_witness :
    zp_get_coeffs [1] [0] true = none ∧
    (gpzp_get_coeffs [1] [0] (1 : ℝ) true).isSome = true :=
  ⟨(coeff_parity_amended [1] [0] 1 true (by decide) (by decide)).1
      ⟨(1, 0), by decide, by decide⟩,
    ((coeff_parity_amended [1] [0] 1 true (by decide) (by decide)).2
      (by decide)).2⟩

/-- Concrete already-complex moment array witnessing claim C5. -/
noncomputable def zC5 : zmarray :=
  ⟨1, 1, fun _ _ => Complex.I, fun _ => 1, fun _ => 1, none, true⟩

/-- Claim C5: `complex()` on an already-complex moment array returns the
array itself — buffer and `n`, `m`, `alpha` metadata all unchanged. -/
theorem complex_idempotent (z : zmarray) (h : z.isComplex = true) :
    z.complex = z := by
  simp [zmarray.complex, h]

/-- Claim C5 (witness). -/
theorem complex_idempotent_witness : zC5.isComplex = true ∧ zC5.complex = zC5 :=
  ⟨rfl, complex_idempotent zC5 rfl⟩

/-- Concrete already-complex moment array on which `rotinv` mutates its
receiver: one sample, one column with `m = 2`, entry `i`. -/
noncomputable def zC2 : zmarray :=
  ⟨1, 1, fun _ _ => Complex.I, fun _ => 2, fun _ => 2, none, true⟩

/-- Claim C2 (code evaluated at the failing input): `rotinv` applied to the
already-complex array `zC2` leaves the receiver in a different state — the
in-place write `zm_complex[:, ~mask] = np.abs(...)` goes through the alias
returned by `complex()`, replacing the entry `i` by its modulus `1`. -/
theorem rotinv_mutates_receiver : (zC2.rotinv).2 ≠ zC2 := by
  intro h
  have hb := congrArg (fun w => w.buf 0 0) h
  simp only [zmarray.rotinv, zmarray.complex, writeAbs, zC2] at hb
  norm_num [Complex.abs_I, Complex.ext_iff] at hb

/-- Claim C10: `normalize(norm)` on a real-dtype array returns an array whose
`alpha` is `None` (the receiver's `alpha` is not propagated) with `n` and `m`
preserved; on a complex-dtype array it returns the receiver itself. -/
theorem normalize_meta (z : zmarray) (nk : NormKind) :
    (z.isComplex = false → z.alpha ≠ none →
      ((z.normalize nk).alpha = none ∧ (z.normalize nk).n = z.n ∧
        (z.normalize nk).m = z.m)) ∧
    (z.isComplex = true → z.normalize nk = z) := by
  constructor
  · intro h _
    simp [zmarray.normalize, h]
  · intro h
    simp [zmarray.normalize, h]

/-- Concrete real-dtype moment array with `alpha = some 1` for claim C10. -/
noncomputable def zC10a : zmarray :=
  ⟨1, 1, fun _ _ => 2, fun _ => 0, fun _ => 0, some 1, false⟩

/-- Concrete complex-dtype moment array for claim C10. -/
noncomputable def zC10b : zmarray :=
  ⟨1, 1, fun _ _ => 2, fun _ => 0, fun _ => 0, some 1, true⟩

/-- Claim C10 (witness). -/
theorem normalize_meta_witness :
    ((zC10a.normalize NormKind.l2).alpha = none ∧
      (zC10a.normalize NormKind.l2).n = zC10a.n ∧
      (zC10a.normalize NormKind.l2).m = zC10a.m) ∧
    zC10b.normalize NormKind.l2 = zC10b :=
  ⟨(normalize_meta zC10a NormKind.l2).1 rfl (by simp [zC10a]),
    (normalize_meta zC10b NormKind.l2).2 rfl⟩

/-- Claim C7: `maps(1)` fails (the assertion in
`construct_rot_weight_matrix`, evaluated before any other work in `maps`),
and for every `n_fold ≥ 2` the weight for a column with azimuthal frequency
`m i` is the average of `cos(|m i| * 2π * k / n_fold)` over `k = 1 .. n_fold - 1`. -/
theorem maps_nfold (z : zmarray) (nf : ℕ) (m : ℕ → ℤ) (i : ℕ) (h2 : 2 ≤ nf) :
    z.maps 1 = none ∧
    ∃ w, construct_rot_weight_matrix nf m = some w ∧
      w i = (∑ k ∈ Finset.Icc 1 (nf - 1),
        Real.cos (2 * Real.pi * (k : ℝ) * ((|m i| : ℤ) : ℝ) / (nf : ℝ))) /
        ((nf : ℝ) - 1) := by
  constructor
  · simp [zmarray.maps, construct_rot_weight_matrix]
  · refine ⟨fun i' => (∑ k ∈ Finset.Ico 1 nf,
        Real.cos (((|m i'| : ℤ) : ℝ) * 2 * Real.pi / (nf : ℝ) * (k : ℝ))) /
        ((nf : ℝ) - 1), ?_, ?_⟩
    · unfold construct_rot_weight_matrix
      rw [if_neg (by omega)]
    · show (∑ k ∈ Finset.Ico 1 nf,
          Real.cos (((|m i| : ℤ) : ℝ) * 2 * Real.pi / (nf : ℝ) * (k : ℝ))) /
          ((nf : ℝ) - 1) = _
      have hset : Finset.Ico 1 nf = Finset.Icc 1 (nf - 1) := by
        rw [← Nat.Ico_succ_right]
        congr 1
        omega
      rw [hset]
      congr 1
      refine Finset.sum_congr rfl ?_
      intro k _
      congr 1
      ring

/-- Concrete metadata function for the claim C7 witness. -/
def mC7 : ℕ → ℤ := fun _ => 2

/-- Concrete moment array for the claim C7 witness. -/
noncomputable def zC7 : zmarray :=
  ⟨1, 1, fun _ _ => 1, fun _ => 2, fun _ => 2, none, false⟩

/-- Claim C7 (witness) at `n_fold = 2`. -/
theorem maps_nfold_witness :
    zC7.maps 1 = none ∧
    ∃ w, construct_rot_weight_matrix 2 mC7 = some w ∧
      w 0 = (∑ k ∈ Finset.Icc (1 : ℕ) (2 - 1),
        Real.cos (2 * Real.pi * (k : ℝ) * ((|mC7 0| : ℤ) : ℝ) / ((2 : ℕ) : ℝ))) /
        (((2 : ℕ) : ℝ) - 1) :=
  maps_nfold zC7 2 mC7 0 (by norm_num)

/-- Inversion for `generate_data_from_nm`: a successful basis tensor has
spatial shape `size × size`. -/
theorem generate_data_shape (n m : List ℤ) (size : ℕ) (alpha : Option ℝ)
    (arr : Arr3) (h : generate_data_from_nm n m size alpha = some arr) :
    arr.d1 = size ∧ arr.d2 = size := by
  unfold generate_data_from_nm at h
  split at h
  · cases h
  · rw [Option.some.injEq] at h
    subst h
    exact ⟨rfl, rfl⟩

/-- Inversion for `ZPs.init`: the configured extractor's grid size, basis
shape, and filtered metadata, as fixed by the constructor.  The filtered `m`
list is exactly the full bijection-generated list restricted through
`_get_m_states` and `np.in1d` — the same resolution used by `select`. -/
theorem ZPs_init_inversion (n_max size : ℕ) (alpha : Option ℝ) (st : MStatesArg)
    (zp : ZPsState) (h : ZPs.init n_max size alpha st = some zp) :
    zp.size = size ∧ zp.data.d1 = size ∧ zp.data.d2 = size ∧
    zp.n_components = zp.n.length ∧
    zp.m = (selIndices
        (fun i => (((List.range ((nm2j (n_max : ℤ) (n_max : ℤ) alpha).toNat + 1)).map
          (fun j => j2nm j alpha)).map Prod.snd).getD i 0)
        (((List.range ((nm2j (n_max : ℤ) (n_max : ℤ) alpha).toNat + 1)).map
          (fun j => j2nm j alpha)).map Prod.snd).length
        (get_m_states
          (fun i => (((List.range ((nm2j (n_max : ℤ) (n_max : ℤ) alpha).toNat + 1)).map
            (fun j => j2nm j alpha)).map Prod.snd).getD i 0)
          (((List.range ((nm2j (n_max : ℤ) (n_max : ℤ) alpha).toNat + 1)).map
            (fun j => j2nm j alpha)).map Prod.snd).length st)).map
        (fun i => (((List.range ((nm2j (n_max : ℤ) (n_max : ℤ) alpha).toNat + 1)).map
          (fun j => j2nm j alpha)).map Prod.snd).getD i 0) := by
  dsimp only [ZPs.init] at h
  split at h
  · cases h
  · rename_i data hgen
    rw [Option.some.injEq] at h
    subst h
    obtain ⟨h1, h2⟩ := generate_data_shape _ _ _ _ _ hgen
    exact ⟨rfl, h1, h2, rfl, rfl⟩

/-- Claim C8: the azimuthal-state filter resolves as specified — `None` gives
all distinct `|m|` present, a single non-negative value gives only that value,
a single negative value gives all distinct nonzero `|m|` — `select` retains
exactly the columns whose `|m|` lies in the resolved set (preserving their
`n`, `m` metadata, `alpha` and dtype), and a configured extractor's metadata
is the full bijection-generated list filtered through the very same
resolution. -/
theorem m_states_select :
    (∀ (m : ℕ → ℤ) (N : ℕ) (v : ℤ),
      v ∈ get_m_states m N MStatesArg.noneArg ↔ ∃ i, i < N ∧ |m i| = v) ∧
    (∀ (m : ℕ → ℤ) (N : ℕ) (v : ℤ), 0 ≤ v →
      get_m_states m N (MStatesArg.intArg v) = [v]) ∧
    (∀ (m : ℕ → ℤ) (N : ℕ) (s : ℤ), s < 0 → ∀ v : ℤ,
      v ∈ get_m_states m N (MStatesArg.intArg s) ↔
        ((∃ i, i < N ∧ |m i| = v) ∧ v ≠ 0)) ∧
    (∀ (m : ℕ → ℤ) (N : ℕ) (S : List ℤ) (i : ℕ),
      i ∈ selIndices m N S ↔ (i < N ∧ |m i| ∈ S)) ∧
    (∀ (z : zmarray) (st : MStatesArg),
      (z.select st).cols =
        (selIndices z.m z.cols (get_m_states z.m z.cols st)).length ∧
      (z.select st).alpha = z.alpha ∧
      (z.select st).isComplex = z.isComplex ∧
      ∀ j : ℕ,
        (z.select st).n j =
          z.n ((selIndices z.m z.cols (get_m_states z.m z.cols st)).getD j 0) ∧
        (z.select st).m j =
          z.m ((selIndices z.m z.cols (get_m_states z.m z.cols st)).getD j 0) ∧
        ∀ s : ℕ, (z.select st).buf s j =
          z.buf s ((selIndices z.m z.cols (get_m_states z.m z.cols st)).getD j 0)) ∧
    (∀ (n_max size : ℕ) (alpha : Option ℝ) (st : MStatesArg) (zp : ZPsState),
      ZPs.init n_max size alpha st = some zp →
      zp.m = (selIndices
          (fun i => (((List.range ((nm2j (n_max : ℤ) (n_max : ℤ) alpha).toNat + 1)).map
            (fun j => j2nm j alpha)).map Prod.snd).getD i 0)
          (((List.range ((nm2j (n_max : ℤ) (n_max : ℤ) alpha).toNat + 1)).map
            (fun j => j2nm j alpha)).map Prod.snd).length
          (get_m_states
            (fun i => (((List.range ((nm2j (n_max : ℤ) (n_max : ℤ) alpha).toNat + 1)).map
              (fun j => j2nm j alpha)).map Prod.snd).getD i 0)
            (((List.range ((nm2j (n_max : ℤ) (n_max : ℤ) alpha).toNat + 1)).map
              (fun j => j2nm j alpha)).map Prod.snd).length st)).map
          (fun i => (((List.range ((nm2j (n_max : ℤ) (n_max : ℤ) alpha).toNat + 1)).map
            (fun j => j2nm j alpha)).map Prod.snd).getD i 0)) := by
  refine ⟨?_, ?_, ?_, ?_, ?_, ?_⟩
  · intro m N v
    simp [get_m_states, List.mem_dedup, List.mem_map, List.mem_range]
  · intro m N v hv
    simp [get_m_states, not_lt.mpr hv]
  · intro m N s hs v
    simp only [get_m_states, if_pos hs, List.mem_filter, Finset.mem_sort,
      List.mem_toFinset, List.mem_map, List.mem_range, decide_eq_true_eq]
  · intro m N S i
    simp [selIndices, List.mem_filter, List.mem_range]
  · intro z st
    exact ⟨rfl, rfl, rfl, fun j => ⟨rfl, rfl, fun s => rfl⟩⟩
  · intro n_max size alpha st zp h
    exact (ZPs_init_inversion n_max size alpha st zp h).2.2.2.2

/-- Concrete metadata function for the claim C8 witness. -/
def mC8 : ℕ → ℤ := fun i => if i = 0 then 0 else -2

/-- Concrete moment array for the claim C8 witness. -/
noncomputable def zC8 : zmarray :=
  ⟨1, 2, fun _ _ => 1, fun _ => 2, mC8, none, false⟩

/-- Fallback extractor state (never used: `getD` below hits the `some` case). -/
def zpsDefault : ZPsState :=
  ⟨0, 0, none, MStatesArg.noneArg, [], [], 0, ⟨0, 0, 0, fun _ _ _ => 0⟩⟩

/-- Concrete configured extractor for the claim C8 witness: `ZPs(0, 2)`. -/
noncomputable def zpC8 : ZPsState :=
  (ZPs.init 0 2 none MStatesArg.noneArg).getD zpsDefault

/-- Full bijection-generated `m` list of `ZPs(0, 2)` for the claim C8 witness. -/
def mListC8 : List ℤ :=
  ((List.range ((nm2j ((0 : ℕ) : ℤ) ((0 : ℕ) : ℤ) none).toNat + 1)).map
    (fun j => j2nm j none)).map Prod.snd

/-- Claim C8 (witness): concrete instances of the resolution rules, of the
`select` column characterization, and of the constructor using the same
resolution. -/
theorem m_states_select_witness :
    (((0 : ℤ) ∈ get_m_states mC8 2 MStatesArg.noneArg ↔ ∃ i, i < 2 ∧ |mC8 i| = 0)) ∧
    get_m_states mC8 2 (MStatesArg.intArg 1) = [1] ∧
    (((2 : ℤ) ∈ get_m_states mC8 2 (MStatesArg.intArg (-1)) ↔
      ((∃ i, i < 2 ∧ |mC8 i| = 2) ∧ (2 : ℤ) ≠ 0))) ∧
    ((1 : ℕ) ∈ selIndices mC8 2 [2] ↔ (1 < 2 ∧ |mC8 1| ∈ ([2] : List ℤ))) ∧
    (zC8.select MStatesArg.noneArg).cols =
      (selIndices zC8.m zC8.cols (get_m_states zC8.m zC8.cols MStatesArg.noneArg)).length ∧
    ZPs.init 0 2 none MStatesArg.noneArg = some zpC8 ∧
    zpC8.m = (selIndices (fun i => mListC8.getD i 0) mListC8.length
      (get_m_states (fun i => mListC8.getD i 0) mListC8.length
        MStatesArg.noneArg)).map (fun i => mListC8.getD i 0) :=
  ⟨m_states_select.1 mC8 2 0,
   m_states_select.2.1 mC8 2 1 (by norm_num),
   m_states_select.2.2.1 mC8 2 (-1) (by norm_num) 2,
   m_states_select.2.2.2.1 mC8 2 [2] 1,
   (m_states_select.2.2.2.2.1 zC8 MStatesArg.noneArg).1,
   rfl,
   m_states_select.2.2.2.2.2 0 2 none MStatesArg.noneArg zpC8 rfl⟩

/-- Entries in the leading zero padding of a Zernike coefficient row. -/
theorem zpRow_getElem_pad (n_max n mabs : ℤ) (j : ℕ) (hj : j < (n_max - n).toNat)
    (h : j < (zpRow n_max n mabs).length) : (zpRow n_max n mabs)[j] = 0 := by
  have h2 : j < (List.replicate (n_max - n).toNat (0 : ℝ)).length := by simpa using hj
  simp only [zpRow]
  rw [List.getElem_append_left h2, List.getElem_replicate]

/-- Entries in the body of a Zernike coefficient row, as a function of the
relative position `i`. -/
theorem zpRow_getElem_body (n_max n mabs : ℤ) (i j : ℕ)
    (hij : j = (n_max - n).toNat + i) (h : j < (zpRow n_max n mabs).length) :
    (zpRow n_max n mabs)[j] =
      (if i % 2 = 0 then
        (-1 : ℝ) ^ (i / 2) * binomR (n - (i / 2 : ℕ)) (i / 2 : ℕ) *
          binomR (n - 2 * (i / 2 : ℕ)) ((n - mabs) / 2 - (i / 2 : ℕ))
      else 0) := by
  subst hij
  simp only [zpRow]
  rw [List.getElem_append_right (by simp)]
  simp [List.getElem_map, List.getElem_range]

/-- Claim C9: for every valid index list, `zp_get_coeffs` succeeds and each
row has the common width `n_max + 1`, starts with exactly `n_max - n` zero
columns (the entry at position `n_max - n` is non-zero), and within the
remaining `n + 1` entries every odd relative position is zero — non-zero
coefficients occur only at even relative positions. -/
theorem zp_coeff_rows (N M : List ℤ) (hne : N ≠ []) (hlen : N.length = M.length)
    (hvalid : ∀ p ∈ N.zip M, 0 ≤ p.1 ∧ |p.2| ≤ p.1 ∧ (p.1 - |p.2|) % 2 = 0) :
    ∃ rows, zp_get_coeffs N M true = some rows ∧ rows.length = N.length ∧
      ∀ idx, idx < N.length →
        ((rows.getD idx []).length = (listMaxZ N).toNat + 1 ∧
        (∀ j, j < (listMaxZ N - N.getD idx 0).toNat → (rows.getD idx []).getD j 1 = 0) ∧
        (rows.getD idx []).getD (listMaxZ N - N.getD idx 0).toNat 0 ≠ 0 ∧
        (∀ i, i % 2 = 1 → (listMaxZ N - N.getD idx 0).toNat + i < (listMaxZ N).toNat + 1 →
          (rows.getD idx []).getD ((listMaxZ N - N.getD idx 0).toNat + i) 1 = 0)) := by
  have hall : (N.zip M).all (fun p => decide ((p.1 - |p.2|) % 2 = 0)) = true := by
    rw [List.all_eq_true]
    intro p hp
    exact decide_eq_true (hvalid p hp).2.2
  refine ⟨(N.zip M).map (fun p =>
      let r := zpRow (listMaxZ N) p.1 |p.2|
      if true then r.map (· * zp_norm p.1 p.2) else r), ?_, ?_, ?_⟩
  · unfold zp_get_coeffs
    rw [if_neg hne, if_neg (by simp [hlen]), if_pos hall,
      if_pos (zp_rows_sameLengths N M (fun p hp => ⟨(hvalid p hp).1, (hvalid p hp).2.1⟩))]
  · rw [List.length_map, List.length_zip]
    omega
  · intro idx hidx
    have hzlen : idx < (N.zip M).length := by rw [List.length_zip]; omega
    have hrows : idx < ((N.zip M).map (fun p =>
        let r := zpRow (listMaxZ N) p.1 |p.2|
        if true then r.map (· * zp_norm p.1 p.2) else r)).length := by
      rw [List.length_map]; exact hzlen
    have hrow0 : (((N.zip M).map (fun p =>
        let r := zpRow (listMaxZ N) p.1 |p.2|
        if true then r.map (· * zp_norm p.1 p.2) else r)).getD idx []) =
        (zpRow (listMaxZ N) (N.zip M)[idx].1 |(N.zip M)[idx].2|).map
          (· * zp_norm (N.zip M)[idx].1 (N.zip M)[idx].2) := by
      rw [List.getD_eq_getElem _ _ hrows, List.getElem_map]
      rfl
    have hmem : (N.zip M)[idx] ∈ N.zip M := List.getElem_mem hzlen
    obtain ⟨h0, habs, hpar⟩ := hvalid _ hmem
    have hNidx : (N.zip M)[idx].1 = N.getD idx 0 := by
      rw [List.getElem_zip, List.getD_eq_getElem _ _ hidx]
    set n := (N.zip M)[idx].1 with hn
    set mm := (N.zip M)[idx].2 with hm
    have hnmem : n ∈ N := by
      rw [hn, List.getElem_zip]
      exact List.getElem_mem (by omega)
    have hle : n ≤ listMaxZ N := le_listMaxZ hnmem
    have hrlen : (zpRow (listMaxZ N) n |mm|).length = (listMaxZ N).toNat + 1 :=
      zpRow_length _ _ _ h0 hle
    rw [hrow0, ← hNidx]
    refine ⟨?_, ?_, ?_, ?_⟩
    · rw [List.length_map]
      exact hrlen
    · intro j hj
      have hjl : j < ((zpRow (listMaxZ N) n |mm|).map (· * zp_norm n mm)).length := by
        rw [List.length_map, hrlen]
        omega
      rw [List.getD_eq_getElem _ _ hjl, List.getElem_map,
        zpRow_getElem_pad _ _ _ _ hj, zero_mul]
    · have hpl : (listMaxZ N - n).toNat <
          ((zpRow (listMaxZ N) n |mm|).map (· * zp_norm n mm)).length := by
        rw [List.length_map, hrlen]
        omega
      rw [List.getD_eq_getElem _ _ hpl, List.getElem_map]
      have habs0 : (0 : ℤ) ≤ |mm| := abs_nonneg mm
      have hb : (listMaxZ N - n).toNat < (zpRow (listMaxZ N) n |mm|).length := by
        rw [hrlen]
        omega
      have hij0 : (listMaxZ N - n).toNat = (listMaxZ N - n).toNat + 0 := rfl
      rw [zpRow_getElem_body (listMaxZ N) n |mm| 0 (listMaxZ N - n).toNat hij0 hb]
      obtain ⟨c, hc⟩ : ∃ c, n - |mm| = 2 * c := Int.dvd_of_emod_eq_zero hpar
      have hnum : (n - |mm|) / 2 = c := by
        rw [hc]
        exact Int.mul_ediv_cancel_left c two_ne_zero
      have hc0 : 0 ≤ c := by omega
      have hcn : c ≤ n := by omega
      have hb1 : binomR (n - ((0 : ℕ) / 2 : ℕ)) ((0 : ℕ) / 2 : ℕ) = 1 := by
        simp [binomR, h0]
      have hb2 : binomR (n - 2 * ((0 : ℕ) / 2 : ℕ)) ((n - |mm|) / 2 - ((0 : ℕ) / 2 : ℕ)) =
          ((n.toNat).choose c.toNat : ℝ) := by
        simp only [Nat.zero_div, Nat.cast_zero, mul_zero, sub_zero, hnum]
        rw [binomR, if_pos ⟨hc0, hcn⟩]
      have hchoose : (0 : ℝ) < ((n.toNat).choose c.toNat : ℝ) := by
        have : c.toNat ≤ n.toNat := by omega
        exact_mod_cast Nat.choose_pos this
      have hnorm : 0 < zp_norm n mm := by
        unfold zp_norm
        split
        · apply Real.sqrt_pos.mpr
          have : (0 : ℝ) ≤ (n : ℝ) := by exact_mod_cast h0
          linarith
        · apply Real.sqrt_pos.mpr
          have : (0 : ℝ) ≤ (n : ℝ) := by exact_mod_cast h0
          linarith
      simp only [Nat.zero_mod, if_pos rfl, Nat.zero_div, pow_zero, one_mul, hb1, mul_one, hb2]
      exact mul_ne_zero (ne_of_gt hchoose) (ne_of_gt hnorm)
    · intro i hodd hi
      have hil : (listMaxZ N - n).toNat + i <
          ((zpRow (listMaxZ N) n |mm|).map (· * zp_norm n mm)).length := by
        rw [List.length_map, hrlen]
        omega
      rw [List.getD_eq_getElem _ _ hil, List.getElem_map,
        zpRow_getElem_body _ _ _ i ((listMaxZ N - n).toNat + i) rfl (by rw [hrlen]; omega)]
      rw [if_neg (by omega), zero_mul]

/-- Claim C9 (witness) at the valid list `n = [0, 2]`, `m = [0, 0]`. -/
theorem zp_coeff_rows_witness :
    ∃ rows, zp_get_coeffs [0, 2] [0, 0] true = some rows ∧
      rows.length = ([0, 2] : List ℤ).length ∧
      ∀ idx, idx < ([0, 2] : List ℤ).length →
        ((rows.getD idx []).length = (listMaxZ [0, 2]).toNat + 1 ∧
        (∀ j, j < (listMaxZ [0, 2] - ([0, 2] : List ℤ).getD idx 0).toNat →
          (rows.getD idx []).getD j 1 = 0) ∧
        (rows.getD idx []).getD (listMaxZ [0, 2] - ([0, 2] : List ℤ).getD idx 0).toNat 0 ≠ 0 ∧
        (∀ i, i % 2 = 1 →
          (listMaxZ [0, 2] - ([0, 2] : List ℤ).getD idx 0).toNat + i < (listMaxZ [0, 2]).toNat + 1 →
          (rows.getD idx []).getD ((listMaxZ [0, 2] - ([0, 2] : List ℤ).getD idx 0).toNat + i) 1 = 0)) :=
  zp_coeff_rows [0, 2] [0, 0] (by decide) (by decide) (by decide)

/-- Claim C3: for every configured extractor and every single 2D input image
whose first side exceeds the configured grid size (`self.data.shape[1]`),
`fit` broadcasts the image across all polynomials (to shape
`(n_components_, h, w)`) and runs the `fftconv` strategy on the broadcast
stack, regardless of the requested method. -/
theorem fit_large_forces_fftconv (n_max size : ℕ) (alpha : Option ℝ)
    (st : MStatesArg) (zp : ZPsState) (hz : ZPs.init n_max size alpha st = some zp)
    (A : Arr2) (hbig : size < A.d0) (hw : 0 < A.d1) (meth : Method) :
    ZPs.fit zp (NDArr.d2 A) meth =
      runMethod zp (NDArr.d3 ⟨zp.n_components, A.d0, A.d1, fun _ i j => A.val i j⟩)
        Method.fftconv := by
  obtain ⟨hsize, hd1, hd2, hnc, hm⟩ := ZPs_init_inversion n_max size alpha st zp hz
  unfold ZPs.fit
  rw [if_pos (by simp [checkArrayOK]; omega)]
  have hne : A.d0 ≠ zp.data.d1 := by omega
  dsimp only
  rw [if_neg hne, if_pos (by omega)]

/-- Concrete configured extractor (`ZPs(0, 2)`) for the claim C3 witness. -/
noncomputable def zpC3 : ZPsState :=
  (ZPs.init 0 2 none MStatesArg.noneArg).getD zpsDefault

/-- Concrete 3×3 input image (larger than the 2×2 grid) for claim C3. -/
noncomputable def imgC3 : Arr2 := ⟨3, 3, fun _ _ => 1⟩

/-- Claim C3 (witness): a 3×3 image on a 2×2 grid with the `matrix` method
requested is still broadcast and extracted by `fftconv`. -/
theorem fit_large_forces_fftconv_witness :
    ZPs.init 0 2 none MStatesArg.noneArg = some zpC3 ∧ 2 < imgC3.d0 ∧ 0 < imgC3.d1 ∧
    ZPs.fit zpC3 (NDArr.d2 imgC3) Method.matrix =
      runMethod zpC3
        (NDArr.d3 ⟨zpC3.n_components, imgC3.d0, imgC3.d1, fun _ i j => imgC3.val i j⟩)
        Method.fftconv :=
  ⟨rfl, by norm_num [imgC3], by norm_num [imgC3],
    fit_large_forces_fftconv 0 2 none MStatesArg.noneArg zpC3 rfl imgC3
      (by norm_num [imgC3]) (by norm_num [imgC3]) Method.matrix⟩

/-- Claim C4 (amended): for every configured extractor and every square 2D
input image whose side length is strictly smaller than the configured grid
size, `fit` fails for every strategy — except that the `direct` strategy on a
1×1 image broadcasts the single pixel against each basis slice and succeeds. -/
theorem fit_small_fails (n_max size : ℕ) (alpha : Option ℝ) (st : MStatesArg)
    (zp : ZPsState) (hz : ZPs.init n_max size alpha st = some zp)
    (A : Arr2) (hsq : A.d0 = A.d1) (hs : A.d0 < size) (meth : Method)
    (hex : ¬(meth = Method.direct ∧ A.d0 = 1)) :
    ZPs.fit zp (NDArr.d2 A) meth = none := by
  obtain ⟨hsize, hd1, hd2, hnc, hm⟩ := ZPs_init_inversion n_max size alpha st zp hz
  by_cases hw : A.d0 = 0
  · unfold ZPs.fit
    rw [if_neg (by simp [checkArrayOK, hw])]
  have hw1 : 0 < A.d0 := by omega
  have hsz2 : 2 ≤ size := by omega
  have hss : size ≤ size * size := Nat.le_mul_of_pos_left size (by omega)
  unfold ZPs.fit
  rw [if_pos (by simp [checkArrayOK]; omega)]
  dsimp only
  rw [if_neg (by omega), if_neg (by omega)]
  cases meth with
  | matrix =>
    show matrixStrategy zp A = none
    have hD : (dataFlat zp).d1 = size * size := by
      unfold dataFlat
      rw [hd1, hd2]
    unfold matrixStrategy
    dsimp only
    split
    · rfl
    · rw [if_neg]
      omega
  | direct =>
    show directStrategy zp (NDArr.d2 A) = none
    unfold directStrategy
    dsimp only
    rw [if_neg]
    intro hcon
    rcases hcon.1 with h | h | h
    · omega
    · exact hex ⟨rfl, by omega⟩
    · omega
  | transpose =>
    show transposeStrategy zp A = none
    have hD : (dataFlat zp).d1 = size * size := by
      unfold dataFlat
      rw [hd1, hd2]
    unfold transposeStrategy
    dsimp only
    rw [if_neg]
    omega
  | pseudo =>
    show pseudoStrategy zp A = none
    have hD : (dataFlat zp).d1 = size * size := by
      unfold dataFlat
      rw [hd1, hd2]
    unfold pseudoStrategy
    dsimp only
    rw [if_neg]
    omega
  | fftconv => rfl

/-- Concrete configured extractor (`ZPs(0, 3)`) for claim C4. -/
noncomputable def zpC4 : ZPsState :=
  (ZPs.init 0 3 none MStatesArg.noneArg).getD zpsDefault

/-- Claim C4 (counterexample): on the extractor `ZPs(0, 3)` a 1×1 input image
(side length 1 < grid size 3) with the `direct` method does NOT fail — `fit`
produces a moment array, because the single-pixel row broadcasts against each
3×3 basis slice. -/
theorem fit_small_direct_cx :
    ZPs.init 0 3 none MStatesArg.noneArg = some zpC4 ∧
    zpC4.data.d1 = 3 ∧
    (ZPs.fit zpC4 (NDArr.d2 ⟨1, 1, fun _ _ => 1⟩) Method.direct).isSome = true := by
  refine ⟨rfl, rfl, ?_⟩
  rfl

/-- Claim C4 (witness for the amended theorem): a 2×2 image on the 3×3 grid
with the default `matrix` method fails. -/
theorem fit_small_fails_witness :
    ZPs.init 0 3 none MStatesArg.noneArg = some zpC4 ∧
    ZPs.fit zpC4 (NDArr.d2 ⟨2, 2, fun _ _ => 1⟩) Method.matrix = none :=
  ⟨rfl, fit_small_fails 0 3 none MStatesArg.noneArg zpC4 rfl ⟨2, 2, fun _ _ => 1⟩
    rfl (by norm_num) Method.matrix (by simp)⟩

/-- Row of the rotation operator for an `m = 0` column under the canonical
layout: the identity row. -/
theorem rot_row_m0 (n m : ℕ → ℤ) (N : ℕ) (theta : ℝ) (i : ℕ) (hi : i < N)
    (h0 : m i = 0) (hid : nm2j (n i) (m i) none = (i : ℤ)) (j : ℕ) :
    construct_rot_matrix n m N theta none i j = if j = i then 1 else 0 := by
  simp only [construct_rot_matrix]
  rw [if_pos hi, if_pos h0, hid]
  simp only [Nat.cast_inj]

/-- Row of the rotation operator for an `m < 0` column under the canonical
layout, with `p` the partner column of the negated azimuthal index. -/
theorem rot_row_neg (n m : ℕ → ℤ) (N : ℕ) (theta : ℝ) (i : ℕ) (hi : i < N)
    (hneg : m i < 0) (hid : nm2j (n i) (m i) none = (i : ℤ)) (p : ℕ)
    (hp : (p : ℤ) = nm2j (n i) (-(m i)) none) (j : ℕ) :
    construct_rot_matrix n m N theta none i j =
      if j = p then -Real.sin (deg2rad theta * ((-(m i) : ℤ) : ℝ))
      else if j = i then Real.cos (deg2rad theta * ((-(m i) : ℤ) : ℝ))
      else 0 := by
  simp only [construct_rot_matrix]
  rw [if_pos hi, if_neg (by omega), if_pos hneg, ← hp, hid]
  simp only [Nat.cast_inj]

/-- Row of the rotation operator for an `m > 0` column under the canonical
layout, with `p` the partner column of the negated azimuthal index. -/
theorem rot_row_pos (n m : ℕ → ℤ) (N : ℕ) (theta : ℝ) (i : ℕ) (hi : i < N)
    (hpos : 0 < m i) (hid : nm2j (n i) (m i) none = (i : ℤ)) (p : ℕ)
    (hp : (p : ℤ) = nm2j (n i) (-(m i)) none) (j : ℕ) :
    construct_rot_matrix n m N theta none i j =
      if j = p then Real.sin (deg2rad theta * ((m i : ℤ) : ℝ))
      else if j = i then Real.cos (deg2rad theta * ((m i : ℤ) : ℝ))
      else 0 := by
  simp only [construct_rot_matrix]
  rw [if_pos hi, if_neg (by omega), if_neg (by omega), ← hp, hid]
  simp only [Nat.cast_inj]

/-- Product of two rotation operator matrices under the canonical layout:
rotating by `a` and then by `b` is the operator of rotation by `a + b`
(entrywise, via the angle-addition formulas on each 2×2 block). -/
theorem rot_matrix_mul (n m : ℕ → ℤ) (N : ℕ) (H : CanonicalLayout n m N)
    (a b : ℝ) (i k : ℕ) :
    (∑ j ∈ Finset.range N, construct_rot_matrix n m N b none i j *
      construct_rot_matrix n m N a none j k) =
    construct_rot_matrix n m N (a + b) none i k := by
  by_cases hi : i < N
  · obtain ⟨hid, p, hpN, hpj, hnp, hmp⟩ := H i hi
    have hiN : i ∈ Finset.range N := Finset.mem_range.mpr hi
    have hpNmem : p ∈ Finset.range N := Finset.mem_range.mpr hpN
    rcases lt_trichotomy (m i) 0 with hneg | h0 | hpos
    · -- m i < 0: the row pairs column i with its partner p
      have hpi : p ≠ i := by
        intro he
        rw [he] at hmp
        omega
      have hidp : nm2j (n p) (m p) none = (p : ℤ) := (H p hpN).1
      have hmppos : 0 < m p := by omega
      have hppartner : ((i : ℕ) : ℤ) = nm2j (n p) (-(m p)) none := by
        rw [hnp, hmp, neg_neg, hid]
      have hmpc : ((m p : ℤ) : ℝ) = ((-(m i) : ℤ) : ℝ) := by rw [hmp]
      have hsum : (∑ j ∈ Finset.range N, construct_rot_matrix n m N b none i j *
          construct_rot_matrix n m N a none j k) =
          (-Real.sin (deg2rad b * ((-(m i) : ℤ) : ℝ))) *
            construct_rot_matrix n m N a none p k +
          Real.cos (deg2rad b * ((-(m i) : ℤ) : ℝ)) *
            construct_rot_matrix n m N a none i k := by
        have hterm : ∀ j ∈ Finset.range N,
            construct_rot_matrix n m N b none i j *
              construct_rot_matrix n m N a none j k =
            (if j = p then (-Real.sin (deg2rad b * ((-(m i) : ℤ) : ℝ))) *
              construct_rot_matrix n m N a none p k else 0) +
            (if j = i then Real.cos (deg2rad b * ((-(m i) : ℤ) : ℝ)) *
              construct_rot_matrix n m N a none i k else 0) := by
          intro j _
          rw [rot_row_neg n m N b i hi hneg hid p hpj j]
          by_cases h1 : j = p
          · subst h1
            rw [if_pos rfl, if_pos rfl, if_neg hpi, add_zero]
          · by_cases h2 : j = i
            · subst h2
              rw [if_neg h1, if_pos rfl, if_neg h1, if_pos rfl, zero_add]
            · rw [if_neg h1, if_neg h2, if_neg h1, if_neg h2, zero_mul, add_zero]
        rw [Finset.sum_congr rfl hterm, Finset.sum_add_distrib,
          Finset.sum_ite_eq' (Finset.range N) p
            (fun _ => (-Real.sin (deg2rad b * ((-(m i) : ℤ) : ℝ))) *
              construct_rot_matrix n m N a none p k),
          Finset.sum_ite_eq' (Finset.range N) i
            (fun _ => Real.cos (deg2rad b * ((-(m i) : ℤ) : ℝ)) *
              construct_rot_matrix n m N a none i k),
          if_pos hpNmem, if_pos hiN]
      rw [hsum, rot_row_pos n m N a p hpN hmppos hidp i hppartner k, hmpc,
        rot_row_neg n m N a i hi hneg hid p hpj k,
        rot_row_neg n m N (a + b) i hi hneg hid p hpj k]
      have hsplit : deg2rad (a + b) * ((-(m i) : ℤ) : ℝ) =
          deg2rad a * ((-(m i) : ℤ) : ℝ) + deg2rad b * ((-(m i) : ℤ) : ℝ) := by
        unfold deg2rad
        ring
      by_cases hk1 : k = p
      · subst hk1
        simp only [eq_self_iff_true, if_true, hpi, if_false]
        rw [hsplit, Real.sin_add]
        ring
      · by_cases hk2 : k = i
        · subst hk2
          simp only [eq_self_iff_true, if_true, hk1, if_false]
          rw [hsplit, Real.cos_add]
          ring
        · simp only [hk1, hk2, if_false]
          ring
    · -- m i = 0: identity row
      have hrowb := rot_row_m0 n m N b i hi h0 hid
      have hterm : ∀ j ∈ Finset.range N,
          construct_rot_matrix n m N b none i j *
            construct_rot_matrix n m N a none j k =
          if j = i then construct_rot_matrix n m N a none j k else 0 := by
        intro j _
        rw [hrowb j]
        by_cases h : j = i
        · rw [if_pos h, if_pos h, one_mul]
        · rw [if_neg h, if_neg h, zero_mul]
      rw [Finset.sum_congr rfl hterm,
        Finset.sum_ite_eq' (Finset.range N) i
          (fun j => construct_rot_matrix n m N a none j k), if_pos hiN,
        rot_row_m0 n m N a i hi h0 hid k, rot_row_m0 n m N (a + b) i hi h0 hid k]
    · -- m i > 0
      have hpi : p ≠ i := by
        intro he
        rw [he] at hmp
        omega
      have hidp : nm2j (n p) (m p) none = (p : ℤ) := (H p hpN).1
      have hmpneg : m p < 0 := by omega
      have hppartner : ((i : ℕ) : ℤ) = nm2j (n p) (-(m p)) none := by
        rw [hnp, hmp, neg_neg, hid]
      have hmpc : ((-(m p) : ℤ) : ℝ) = ((m i : ℤ) : ℝ) := by rw [hmp, neg_neg]
      have hsum : (∑ j ∈ Finset.range N, construct_rot_matrix n m N b none i j *
          construct_rot_matrix n m N a none j k) =
          Real.sin (deg2rad b * ((m i : ℤ) : ℝ)) *
            construct_rot_matrix n m N a none p k +
          Real.cos (deg2rad b * ((m i : ℤ) : ℝ)) *
            construct_rot_matrix n m N a none i k := by
        have hterm : ∀ j ∈ Finset.range N,
            construct_rot_matrix n m N b none i j *
              construct_rot_matrix n m N a none j k =
            (if j = p then Real.sin (deg2rad b * ((m i : ℤ) : ℝ)) *
              construct_rot_matrix n m N a none p k else 0) +
            (if j = i then Real.cos (deg2rad b * ((m i : ℤ) : ℝ)) *
              construct_rot_matrix n m N a none i k else 0) := by
          intro j _
          rw [rot_row_pos n m N b i hi hpos hid p hpj j]
          by_cases h1 : j = p
          · subst h1
            rw [if_pos rfl, if_pos rfl, if_neg hpi, add_zero]
          · by_cases h2 : j = i
            · subst h2
              rw [if_neg h1, if_pos rfl, if_neg h1, if_pos rfl, zero_add]
            · rw [if_neg h1, if_neg h2, if_neg h1, if_neg h2, zero_mul, add_zero]
        rw [Finset.sum_congr rfl hterm, Finset.sum_add_distrib,
          Finset.sum_ite_eq' (Finset.range N) p
            (fun _ => Real.sin (deg2rad b * ((m i : ℤ) : ℝ)) *
              construct_rot_matrix n m N a none p k),
          Finset.sum_ite_eq' (Finset.range N) i
            (fun _ => Real.cos (deg2rad b * ((m i : ℤ) : ℝ)) *
              construct_rot_matrix n m N a none i k),
          if_pos hpNmem, if_pos hiN]
      rw [hsum, rot_row_neg n m N a p hpN hmpneg hidp i hppartner k, hmpc,
        rot_row_pos n m N a i hi hpos hid p hpj k,
        rot_row_pos n m N (a + b) i hi hpos hid p hpj k]
      have hsplit : deg2rad (a + b) * ((m i : ℤ) : ℝ) =
          deg2rad a * ((m i : ℤ) : ℝ) + deg2rad b * ((m i : ℤ) : ℝ) := by
        unfold deg2rad
        ring
      by_cases hk1 : k = p
      · subst hk1
        simp only [eq_self_iff_true, if_true, hpi, if_false]
        rw [hsplit, Real.sin_add]
        ring
      · by_cases hk2 : k = i
        · subst hk2
          simp only [eq_self_iff_true, if_true, hk1, if_false]
          rw [hsplit, Real.cos_add]
          ring
        · simp only [hk1, hk2, if_false]
          ring
  · have hzab : construct_rot_matrix n m N (a + b) none i k = 0 := by
      simp only [construct_rot_matrix]
      rw [if_neg hi]
    rw [hzab]
    refine Finset.sum_eq_zero ?_
    intro j _
    have hzb : construct_rot_matrix n m N b none i j = 0 := by
      simp only [construct_rot_matrix]
      rw [if_neg hi]
    rw [hzb, zero_mul]

/-- Composition of `rot`: under the canonical layout, rotating by `a` and then
by `b` equals rotating by `a + b` (exact, by the angle-addition formulas). -/
theorem rot_rot (z : zmarray) (H : CanonicalLayout z.n z.m z.cols) (a b : ℝ) :
    (z.rot a).rot b = z.rot (a + b) := by
  unfold zmarray.rot
  dsimp only
  congr 1
  funext s i
  calc (∑ j ∈ Finset.range z.cols,
        ((construct_rot_matrix z.n z.m z.cols b none i j : ℝ) : ℂ) *
          ∑ k ∈ Finset.range z.cols,
            ((construct_rot_matrix z.n z.m z.cols a none j k : ℝ) : ℂ) * z.buf s k)
      = ∑ j ∈ Finset.range z.cols, ∑ k ∈ Finset.range z.cols,
          ((construct_rot_matrix z.n z.m z.cols b none i j *
            construct_rot_matrix z.n z.m z.cols a none j k : ℝ) : ℂ) * z.buf s k := by
        refine Finset.sum_congr rfl ?_
        intro j _
        rw [Finset.mul_sum]
        refine Finset.sum_congr rfl ?_
        intro k _
        push_cast
        ring
    _ = ∑ k ∈ Finset.range z.cols, ∑ j ∈ Finset.range z.cols,
          ((construct_rot_matrix z.n z.m z.cols b none i j *
            construct_rot_matrix z.n z.m z.cols a none j k : ℝ) : ℂ) * z.buf s k :=
        Finset.sum_comm
    _ = ∑ k ∈ Finset.range z.cols,
          ((construct_rot_matrix z.n z.m z.cols (a + b) none i k : ℝ) : ℂ) * z.buf s k := by
        refine Finset.sum_congr rfl ?_
        intro k _
        rw [← Finset.sum_mul, ← Complex.ofReal_sum,
          rot_matrix_mul z.n z.m z.cols H a b i k]

/-- The rotation operator is 360-degree periodic: shifting the angle by an
integer multiple of 360 degrees leaves every entry unchanged, because the
azimuthal indices are integers. -/
theorem rot_matrix_period (n m : ℕ → ℤ) (N : ℕ) (theta : ℝ) (K : ℤ) :
    construct_rot_matrix n m N (theta - 360 * K) none =
    construct_rot_matrix n m N theta none := by
  funext i j
  simp only [construct_rot_matrix]
  have harg : ∀ d : ℤ, deg2rad (theta - 360 * K) * ((d : ℤ) : ℝ) =
      deg2rad theta * ((d : ℤ) : ℝ) + ((-(K * d) : ℤ) : ℝ) * (2 * Real.pi) := by
    intro d
    unfold deg2rad
    push_cast
    ring
  simp only [harg, Real.cos_add_int_mul_two_pi, Real.sin_add_int_mul_two_pi]

/-- Claim C6: for all angles `a` and `b` and every moment array with the
canonical column layout, `rot(a)` followed by `rot(b)` equals
`rot((a + b) mod 360)` — exactly, hence within any floating tolerance. -/
theorem rot_composition (z : zmarray) (H : CanonicalLayout z.n z.m z.cols)
    (a b : ℝ) : (z.rot a).rot b = z.rot (fmod360 (a + b)) := by
  rw [rot_rot z H a b]
  unfold zmarray.rot
  have hper : construct_rot_matrix z.n z.m z.cols (fmod360 (a + b)) none =
      construct_rot_matrix z.n z.m z.cols (a + b) none := by
    have h1 : fmod360 (a + b) = (a + b) - 360 * ((⌊(a + b) / 360⌋ : ℤ) : ℝ) := rfl
    rw [h1, rot_matrix_period]
  rw [hper]

/-- Radial metadata of the canonical three-column array for claim C6. -/
def nC6 : ℕ → ℤ := fun i => if i = 0 then 0 else 1

/-- Azimuthal metadata of the canonical three-column array for claim C6. -/
def mC6 : ℕ → ℤ := fun i => if i = 1 then -1 else if i = 2 then 1 else 0

/-- Concrete moment array with the canonical layout `(0,0), (1,-1), (1,1)`
for claim C6. -/
noncomputable def zC6 : zmarray := ⟨1, 3, fun _ _ => 1, nC6, mC6, none, false⟩

/-- Claim C6 (witness) at the angles `a = 90`, `b = 45`. -/
theorem rot_composition_witness :
    CanonicalLayout zC6.n zC6.m zC6.cols ∧
    (zC6.rot 90).rot 45 = zC6.rot (fmod360 (90 + 45)) :=
  ⟨by decide, rot_composition zC6 (by decide) 90 45⟩
